import Mathlib

/-!
Verification of the Excel/CSV data cleaner (`src/excel_cleaner.py`).

Python strings are modelled as `List Char` (`PyStr`).  The Unicode case
mapping is modelled for the alphabet the program actually handles (ASCII
letters and the Russian Cyrillic letters А..я plus Ё/ё) by an explicit
case table; characters outside this alphabet are uncased, mirroring how
`str.upper` / `str.lower` / `str.title` leave uncased characters alone.
-/

/-- Python strings, modelled as lists of characters. -/
abbrev PyStr := List Char

/-- Coerce a Lean string literal to the model type. -/
def pys (s : String) : PyStr := s.data

/-- Whitespace, as recognised by Python `str.split()` / `str.strip()`
(restricted to the ASCII whitespace occurring in the program's data). -/
def pyIsWs (c : Char) : Bool :=
  c == ' ' || c == '\t' || c == '\n' || c == '\r' || c == '\x0b' || c == '\x0c'

/-- The (lower, upper) case pairs of the modelled alphabet:
ASCII a..z and Cyrillic а..я together with ё. -/
def caseTable : List (Char × Char) :=
  [('a', 'A'), ('b', 'B'), ('c', 'C'), ('d', 'D'), ('e', 'E'), ('f', 'F'),
   ('g', 'G'), ('h', 'H'), ('i', 'I'), ('j', 'J'), ('k', 'K'), ('l', 'L'),
   ('m', 'M'), ('n', 'N'), ('o', 'O'), ('p', 'P'), ('q', 'Q'), ('r', 'R'),
   ('s', 'S'), ('t', 'T'), ('u', 'U'), ('v', 'V'), ('w', 'W'), ('x', 'X'),
   ('y', 'Y'), ('z', 'Z'),
   ('а', 'А'), ('б', 'Б'), ('в', 'В'), ('г', 'Г'), ('д', 'Д'), ('е', 'Е'),
   ('ж', 'Ж'), ('з', 'З'), ('и', 'И'), ('й', 'Й'), ('к', 'К'), ('л', 'Л'),
   ('м', 'М'), ('н', 'Н'), ('о', 'О'), ('п', 'П'), ('р', 'Р'), ('с', 'С'),
   ('т', 'Т'), ('у', 'У'), ('ф', 'Ф'), ('х', 'Х'), ('ц', 'Ц'), ('ч', 'Ч'),
   ('ш', 'Ш'), ('щ', 'Щ'), ('ъ', 'Ъ'), ('ы', 'Ы'), ('ь', 'Ь'), ('э', 'Э'),
   ('ю', 'Ю'), ('я', 'Я'), ('ё', 'Ё')]

/-- Model of Python's `str.upper` on one character. -/
def pyUpper (c : Char) : Char :=
  match caseTable.find? (fun p => p.1 == c) with
  | some p => p.2
  | none => c

/-- Model of Python's `str.lower` on one character. -/
def pyLower (c : Char) : Char :=
  match caseTable.find? (fun p => p.2 == c) with
  | some p => p.1
  | none => c

/-- A character is cased when it occurs in the case table. -/
def pyCased (c : Char) : Bool :=
  caseTable.any (fun p => p.1 == c || p.2 == c)

/-- Model of Python's `str.isdigit` for the program's data (ASCII digits):
non-empty and all digits. -/
def pyIsDigit (s : PyStr) : Bool :=
  !s.isEmpty && s.all (fun c => '0' ≤ c && c ≤ '9')

/-- Strip leading whitespace (`str.lstrip`). -/
def pyLStrip (l : PyStr) : PyStr := l.dropWhile pyIsWs

/-- Strip trailing whitespace (`str.rstrip`). -/
def pyRStrip (l : PyStr) : PyStr := ((l.reverse).dropWhile pyIsWs).reverse

/-- Model of Python's `str.strip()` (no argument form). -/
def pyStrip (l : PyStr) : PyStr := pyRStrip (pyLStrip l)

/-- Model of Python's `str.split()` (no argument): split on whitespace
runs, discarding empty tokens. -/
def pySplitWs (l : PyStr) : List PyStr :=
  (l.splitOnP pyIsWs).filter (fun t => !t.isEmpty)

/-- Model of `re.split(r"[;,]", line)`: split at every `;` or `,`,
keeping empty fields. -/
def splitDelim (l : PyStr) : List PyStr :=
  l.splitOnP (fun c => c == ';' || c == ',')

/-- Model of Python's `sep.join(parts)`. -/
def pyJoin (sep : PyStr) (parts : List PyStr) : PyStr :=
  (parts.intersperse sep).flatten

/-- Model of Python's `str.capitalize()`: first character uppercased,
the rest lowercased. -/
def pyCapitalize : PyStr → PyStr
  | [] => []
  | c :: rest => pyUpper c :: rest.map pyLower

/-- One character of Python's `str.title()`: a cased character is
lowercased after a cased character and uppercased otherwise; uncased
characters pass through. -/
def titleChar (prev : Bool) (c : Char) : Char :=
  if pyCased c then (if prev then pyLower c else pyUpper c) else c

/-- The state-passing core of Python's `str.title()`: the Boolean tracks
whether the previous character was cased. -/
def titleAux : Bool → PyStr → PyStr
  | _, [] => []
  | prev, c :: rest => titleChar prev c :: titleAux (pyCased c) rest

/-- Model of Python's `str.title()`. -/
def pyTitle (l : PyStr) : PyStr := titleAux false l

/-- `needle` is a prefix of `hay`. -/
def listPrefixOf : PyStr → PyStr → Bool
  | [], _ => true
  | _ :: _, [] => false
  | a :: as, b :: bs => a == b && listPrefixOf as bs

/-- Model of Python's substring containment `needle in hay`. -/
def containsSub (hay needle : PyStr) : Bool :=
  if listPrefixOf needle hay then true
  else
    match hay with
    | [] => false
    | _ :: t => containsSub t needle

/-! ## The normalization functions (`normalize_fio`, `normalize_location`,
`normalize_sentence`, `normalize_text` of `excel_cleaner.py`). -/

/-- The per-token transformation inside `normalize_fio`'s loop:
a two-character token ending in a period is an initial (`word[0].upper() + "."`);
any other token is `word.capitalize()`. -/
def fioWord (word : PyStr) : PyStr :=
  match word with
  | [c, d] => if d = '.' then [pyUpper c, '.'] else pyCapitalize word
  | _ => pyCapitalize word

/-- `normalize_fio` from the source: split on whitespace, fix each token,
rejoin with single spaces; the empty string is returned unchanged. -/
def normalize_fio (value : PyStr) : PyStr :=
  if value.isEmpty then value
  else pyJoin [' '] ((pySplitWs value).map fioWord)

/-- `normalize_location` from the source: `value.title()` with an
empty-string short-circuit. -/
def normalize_location (value : PyStr) : PyStr :=
  if value.isEmpty then value else pyTitle value

/-- `normalize_sentence` from the source: strip, then uppercase the first
character and keep the rest unchanged. -/
def normalize_sentence (value : PyStr) : PyStr :=
  match pyStrip value with
  | [] => []
  | c :: rest => pyUpper c :: rest

/-- Column-name test for person-name mode: `"сотрудник" in column_name.lower()`. -/
def fioCol (columnName : PyStr) : Bool :=
  containsSub (columnName.map pyLower) (pys "сотрудник")

/-- Column-name test for location mode:
`"город" in column_name.lower() or "место" in column_name.lower()`. -/
def locCol (columnName : PyStr) : Bool :=
  containsSub (columnName.map pyLower) (pys "город")
    || containsSub (columnName.map pyLower) (pys "место")

/-- `normalize_text` from the source: the dispatcher over column semantics. -/
def normalize_text (value : PyStr) (columnName : PyStr) : PyStr :=
  if value.isEmpty then value
  else if fioCol columnName then normalize_fio value
  else if locCol columnName then normalize_location value
  else normalize_sentence value

/-! ## Error-tracking variants.

Python raises `IndexError` on out-of-range string indexing; the `E`
variants model every indexing operation (`word[0]`, `word[1]`,
`value[0]`) through `Option`, so that totality of the normalizers is a
statement and not a typing accident. -/

/-- `normalize_fio`'s token step with explicit indexing:
`len(word) == 2 and word[1] == "."` then `word[0].upper() + "."`. -/
def fioWordE (word : PyStr) : Option PyStr :=
  if word.length = 2 then do
    let d ← word.get? 1
    if d = '.' then do
      let c ← word.get? 0
      pure [pyUpper c, '.']
    else pure (pyCapitalize word)
  else pure (pyCapitalize word)

/-- `normalize_fio` with explicit indexing. -/
def normalize_fioE (value : PyStr) : Option PyStr :=
  if value.isEmpty then pure value
  else do
    let ws ← (pySplitWs value).mapM fioWordE
    pure (pyJoin [' '] ws)

/-- `normalize_sentence` with explicit indexing:
`value[0].upper() + value[1:]` guarded by the emptiness check. -/
def normalize_sentenceE (value : PyStr) : Option PyStr :=
  let v := pyStrip value
  if v.isEmpty then pure v
  else do
    let c ← v.get? 0
    pure (pyUpper c :: v.drop 1)

/-- `normalize_text` with explicit indexing in all branches. -/
def normalize_textE (value : PyStr) (columnName : PyStr) : Option PyStr :=
  if value.isEmpty then pure value
  else if fioCol columnName then normalize_fioE value
  else if locCol columnName then pure (normalize_location value)
  else normalize_sentenceE value

/-! ## The processing pipeline (`run_data_processing`). -/

/-- One line split into fields: `[p.strip() for p in re.split(r"[;,]", line)]`. -/
def parseLine (line : PyStr) : List PyStr :=
  (splitDelim line).map pyStrip

/-- A data line parsed against the header:
`[normalize_text(p, col_name) for p, col_name in zip(parts, rows[0])]`. -/
def parseDataRow (header : List PyStr) (line : PyStr) : List PyStr :=
  ((parseLine line).zip header).map (fun pc => normalize_text pc.1 pc.2)

/-- All data lines parsed (the loop of step 1; `rows[0]` is the header
and stays fixed once set). -/
def parseData (header : List PyStr) (lines : List PyStr) : List (List PyStr) :=
  lines.map (parseDataRow header)

/-- `max(len(r) for r in rows)` over a non-empty list of rows. -/
def max_cols_found (rows : List (List PyStr)) : Nat :=
  (rows.map List.length).foldl Nat.max 0

/-- The synthesized column name `f"Additional_Field_{i + 1}"`. -/
def addFieldName (i : Nat) : PyStr :=
  pys "Additional_Field_" ++ (Nat.repr (i + 1)).data

/-- Step 2's header extension: for `i in range(len(header), max_cols)`
append `Additional_Field_{i+1}`; a no-op unless the header is shorter. -/
def extendHeader (header : List PyStr) (maxCols : Nat) : List PyStr :=
  if header.length < maxCols then
    header ++ (List.range' header.length (maxCols - header.length)).map addFieldName
  else header

/-- Step 2's row reconciliation: pad short rows with `""`, truncate long
rows to the header length. -/
def alignRow (header : List PyStr) (r : List PyStr) : List PyStr :=
  if r.length < header.length then r ++ List.replicate (header.length - r.length) []
  else r.take header.length

/-- Alignment over the whole table. -/
def alignRows (header : List PyStr) (rows : List (List PyStr)) : List (List PyStr) :=
  rows.map (alignRow header)

/-- `df.drop_duplicates()` with pandas' default first-occurrence policy,
with an accumulator of rows already seen. -/
def ddAux (seen : List (List PyStr)) : List (List PyStr) → List (List PyStr)
  | [] => []
  | r :: rest => if r ∈ seen then ddAux seen rest else r :: ddAux (r :: seen) rest

/-- Step 3's deduplication. -/
def dropDuplicates (rows : List (List PyStr)) : List (List PyStr) :=
  ddAux [] rows

/-- The scanning loop of `audit_integrity`: skip all-digit fields,
report the first remaining field of length strictly between 0 and 2. -/
def auditScan : List PyStr → Bool
  | [] => false
  | s :: rest =>
    if pyIsDigit s then auditScan rest
    else if 0 < s.length ∧ s.length < 2 then true
    else auditScan rest

/-- `audit_integrity` from the source: collect the flags and join them
with `", "`. -/
def audit_integrity (row : List PyStr) : PyStr :=
  pyJoin (pys ", ")
    ((if [] ∈ row then [pys "Incomplete Entry"] else [])
      ++ (if auditScan row then [pys "Validation Required"] else []))

/-- The non-blank stripped lines of the input file:
`[line.strip() for line in f if line.strip()]`. -/
def nonBlankLines (file : List PyStr) : List PyStr :=
  (file.map pyStrip).filter (fun l => !l.isEmpty)

/-- The two terminal input failures of the run (spec taxonomy `InputError`):
`FileNotFoundError("No files found in raw_data directory.")` and
`ValueError("Input file contains no data.")`. -/
inductive InputError where
  | noFiles
  | noData
deriving DecidableEq, Repr

/-- What a successful run exports: the final header, the deduplicated
table and the per-row audit flags. -/
structure RunOutput where
  header : List PyStr
  table : List (List PyStr)
  flags : List PyStr
deriving DecidableEq, Repr

/-- Steps 1-4 of `run_data_processing` on the usable lines of the selected
file: parsing with per-column normalization, header extension, alignment,
deduplication and the audit column. -/
def processLines : List PyStr → Except InputError RunOutput
  | [] => .error .noData
  | l :: ls =>
    let header := parseLine l
    let dataRows := parseData header ls
    let finalHeader := extendHeader header (max_cols_found (header :: dataRows))
    let aligned := alignRows finalHeader dataRows
    let deduped := dropDuplicates aligned
    .ok ⟨finalHeader, deduped, deduped.map audit_integrity⟩

/-- `run_data_processing` on the contents of the input directory: the
list of candidate files, each given by its raw lines.  An `Except.error`
models the run aborting before any export. -/
def run_data_processing (files : List (List PyStr)) : Except InputError RunOutput :=
  match files with
  | [] => .error .noFiles
  | f :: _ => processLines (nonBlankLines f)

/-! ## Spec-side definitions, for the refinement claims. -/

/-- The person-name token rule in the spec's words: a token of exactly two
characters whose second character is a period becomes its first character
uppercased followed by the period; every other token gets its first
character uppercased and the remainder lowercased. -/
def specFioToken (t : PyStr) : PyStr :=
  if t.length = 2 ∧ t.get? 1 = some '.' then
    match t with
    | c :: _ => [pyUpper c, '.']
    | [] => []
  else
    match t with
    | [] => []
    | c :: rest => pyUpper c :: rest.map pyLower

/-- Person-name normalization in the spec's words: split on whitespace,
transform each token, rejoin with single spaces. -/
def specFio (v : PyStr) : PyStr :=
  pyJoin [' '] ((pySplitWs v).map specFioToken)

/-- Deduplication in the spec's words: a row is removed exactly when it
is field-wise equal to some row strictly before it; the accumulator holds
all rows already passed (kept or not). -/
def specDedupGo (earlier : List (List PyStr)) : List (List PyStr) → List (List PyStr)
  | [] => []
  | r :: rest =>
    if r ∈ earlier then specDedupGo (r :: earlier) rest
    else r :: specDedupGo (r :: earlier) rest

/-- Deduplication as the spec words it. -/
def specDedup (rows : List (List PyStr)) : List (List PyStr) :=
  specDedupGo [] rows

/-! ## Character-level lemmas about the case model. -/

lemma caseTable_upper_fixed :
    ∀ p ∈ caseTable, caseTable.find? (fun q => q.1 == p.2) = none := by decide

lemma caseTable_lower_fixed :
    ∀ p ∈ caseTable, caseTable.find? (fun q => q.2 == p.1) = none := by decide

lemma caseTable_cased :
    ∀ p ∈ caseTable, pyCased p.1 = true ∧ pyCased p.2 = true := by decide

lemma caseTable_not_ws :
    ∀ p ∈ caseTable, pyIsWs p.1 = false ∧ pyIsWs p.2 = false := by decide

lemma pyUpper_pyUpper (c : Char) : pyUpper (pyUpper c) = pyUpper c := by
  unfold pyUpper
  cases h : caseTable.find? (fun p => p.1 == c) with
  | none => simp [h]
  | some p =>
    have hp := List.mem_of_find?_eq_some h
    simp [caseTable_upper_fixed p hp]

lemma pyLower_pyLower (c : Char) : pyLower (pyLower c) = pyLower c := by
  unfold pyLower
  cases h : caseTable.find? (fun p => p.2 == c) with
  | none => simp [h]
  | some p =>
    have hp := List.mem_of_find?_eq_some h
    simp [caseTable_lower_fixed p hp]

lemma pyCased_pyUpper (c : Char) : pyCased (pyUpper c) = pyCased c := by
  unfold pyUpper
  cases h : caseTable.find? (fun p => p.1 == c) with
  | none => rfl
  | some p =>
    have hp := List.mem_of_find?_eq_some h
    have he : p.1 = c := by simpa using List.find?_some h
    have hc := caseTable_cased p hp
    rw [hc.2, ← he, hc.1]

lemma pyCased_pyLower (c : Char) : pyCased (pyLower c) = pyCased c := by
  unfold pyLower
  cases h : caseTable.find? (fun p => p.2 == c) with
  | none => rfl
  | some p =>
    have hp := List.mem_of_find?_eq_some h
    have he : p.2 = c := by simpa using List.find?_some h
    have hc := caseTable_cased p hp
    rw [hc.1, ← he, hc.2]

lemma pyIsWs_pyUpper (c : Char) : pyIsWs (pyUpper c) = pyIsWs c := by
  unfold pyUpper
  cases h : caseTable.find? (fun p => p.1 == c) with
  | none => rfl
  | some p =>
    have hp := List.mem_of_find?_eq_some h
    have he : p.1 = c := by simpa using List.find?_some h
    have hw := caseTable_not_ws p hp
    rw [hw.2, ← he, hw.1]

/-! ## Idempotence of `str.title`. -/

lemma titleAux_length (b : Bool) (l : PyStr) : (titleAux b l).length = l.length := by
  induction l generalizing b with
  | nil => rfl
  | cons c rest ih => simp [titleAux, ih]

lemma titleChar_cased (b : Bool) (c : Char) :
    pyCased (titleChar b c) = pyCased c := by
  cases hc : pyCased c with
  | false => simp [titleChar, hc]
  | true =>
    cases b with
    | false => simp [titleChar, hc, pyCased_pyUpper]
    | true => simp [titleChar, hc, pyCased_pyLower]

lemma titleChar_idem (b : Bool) (c : Char) :
    titleChar b (titleChar b c) = titleChar b c := by
  cases hc : pyCased c with
  | false => simp [titleChar, hc]
  | true =>
    cases b with
    | false => simp [titleChar, hc, pyCased_pyUpper, pyUpper_pyUpper]
    | true => simp [titleChar, hc, pyCased_pyLower, pyLower_pyLower]

lemma titleAux_idem (b : Bool) (l : PyStr) :
    titleAux b (titleAux b l) = titleAux b l := by
  induction l generalizing b with
  | nil => rfl
  | cons c rest ih =>
    simp only [titleAux, titleChar_idem, titleChar_cased]
    rw [ih]

lemma pyTitle_idem (l : PyStr) : pyTitle (pyTitle l) = pyTitle l :=
  titleAux_idem false l

lemma pyTitle_ne_nil (v : PyStr) (h : v ≠ []) : pyTitle v ≠ [] := by
  intro hnil
  apply h
  have hl := titleAux_length false v
  rw [show pyTitle v = titleAux false v from rfl] at hnil
  rw [hnil] at hl
  exact List.length_eq_zero.mp hl.symm

/-! ## Idempotence of sentence normalization. -/

lemma dropWhile_eq_self_of_head (p : Char → Bool) (l : PyStr)
    (h : ∀ c, l.head? = some c → p c = false) : l.dropWhile p = l := by
  cases l with
  | nil => rfl
  | cons c t =>
    apply List.dropWhile_cons_of_neg
    simp [h c rfl]

lemma pyStrip_prefix_lstrip (x : PyStr) : pyStrip x <+: pyLStrip x := by
  unfold pyStrip pyRStrip
  conv_rhs => rw [← List.reverse_reverse (pyLStrip x)]
  exact List.reverse_prefix.mpr (List.dropWhile_suffix _)

lemma pyLStrip_head_not_ws (l : PyStr) (c : Char) (t : PyStr)
    (h : pyLStrip l = c :: t) : pyIsWs c = false := by
  have hh := List.head?_dropWhile_not pyIsWs l
  rw [show l.dropWhile pyIsWs = c :: t from h] at hh
  simpa using hh

lemma pyStrip_head_not_ws (x : PyStr) (c : Char) (t : PyStr)
    (h : pyStrip x = c :: t) : pyIsWs c = false := by
  obtain ⟨s, hs⟩ := pyStrip_prefix_lstrip x
  rw [h] at hs
  exact pyLStrip_head_not_ws x c (t ++ s) (by rw [← hs]; simp)

lemma pyStrip_reverse (x : PyStr) :
    (pyStrip x).reverse = ((pyLStrip x).reverse).dropWhile pyIsWs := by
  unfold pyStrip pyRStrip
  rw [List.reverse_reverse]

lemma pyStrip_revhead_not_ws (x : PyStr) (c : Char) (t : PyStr)
    (h : (pyStrip x).reverse = c :: t) : pyIsWs c = false := by
  have hh := List.head?_dropWhile_not pyIsWs ((pyLStrip x).reverse)
  rw [← pyStrip_reverse, h] at hh
  simpa using hh

lemma pyStrip_of_ends (l : PyStr)
    (h1 : ∀ c, l.head? = some c → pyIsWs c = false)
    (h2 : ∀ c, l.reverse.head? = some c → pyIsWs c = false) : pyStrip l = l := by
  unfold pyStrip pyLStrip pyRStrip
  rw [dropWhile_eq_self_of_head _ _ h1]
  rw [dropWhile_eq_self_of_head _ _ h2, List.reverse_reverse]

lemma normalize_sentence_idem (x : PyStr) :
    normalize_sentence (normalize_sentence x) = normalize_sentence x := by
  cases hy : pyStrip x with
  | nil =>
    simp only [normalize_sentence, hy]
    rfl
  | cons c rest =>
    have hc : pyIsWs c = false := pyStrip_head_not_ws x c rest hy
    have h1 : ∀ d, (pyUpper c :: rest).head? = some d → pyIsWs d = false := by
      intro d hd
      have : d = pyUpper c := by simpa using hd.symm
      rw [this, pyIsWs_pyUpper]
      exact hc
    have h2 : ∀ d, (pyUpper c :: rest).reverse.head? = some d → pyIsWs d = false := by
      intro d hd
      cases hrest : rest.reverse with
      | nil =>
        have hr : rest = [] := by simpa using congrArg List.reverse hrest
        rw [hr] at hd
        have : d = pyUpper c := by simpa using hd.symm
        rw [this, pyIsWs_pyUpper]
        exact hc
      | cons e s =>
        have hrev : (pyUpper c :: rest).reverse = e :: (s ++ [pyUpper c]) := by
          simp [hrest]
        rw [hrev] at hd
        have hde : d = e := by simpa using hd.symm
        have hxe : (pyStrip x).reverse = e :: (s ++ [c]) := by
          rw [hy]
          simp [hrest]
        rw [hde]
        exact pyStrip_revhead_not_ws x e (s ++ [c]) hxe
    have hs := pyStrip_of_ends (pyUpper c :: rest) h1 h2
    simp only [normalize_sentence, hy, hs, pyUpper_pyUpper]

lemma normalize_location_idem (v : PyStr) :
    normalize_location (normalize_location v) = normalize_location v := by
  by_cases hv : v.isEmpty = true
  · simp only [normalize_location, if_pos hv]
  · have hne : v ≠ [] := by
      intro h
      exact hv (List.isEmpty_iff.mpr h)
  -- the title-cased string is again non-empty, so the second pass titles again
    have ht : ¬((pyTitle v).isEmpty = true) := by
      intro h
      exact pyTitle_ne_nil v hne (List.isEmpty_iff.mp h)
    simp only [normalize_location, if_neg hv, if_neg ht, pyTitle_idem]



/-! ## Deduplication lemmas. -/

lemma ddAux_sublist (seen : List (List PyStr)) (l : List (List PyStr)) :
    List.Sublist (ddAux seen l) l := by
  induction l generalizing seen with
  | nil => simp [ddAux]
  | cons r rest ih =>
    simp only [ddAux]
    by_cases h : r ∈ seen
    · rw [if_pos h]
      exact (ih seen).trans (List.sublist_cons_self r rest)
    · rw [if_neg h]
      exact List.Sublist.cons₂ r (ih (r :: seen))

lemma ddAux_mem (seen : List (List PyStr)) (l : List (List PyStr)) (x : List PyStr) :
    x ∈ ddAux seen l ↔ x ∈ l ∧ x ∉ seen := by
  induction l generalizing seen with
  | nil => simp [ddAux]
  | cons r rest ih =>
    simp only [ddAux]
    by_cases h : r ∈ seen
    · rw [if_pos h, ih, List.mem_cons]
      constructor
      · rintro ⟨hx, hs⟩
        exact ⟨Or.inr hx, hs⟩
      · rintro ⟨hx | hx, hs⟩
        · exact absurd (hx ▸ h) hs
        · exact ⟨hx, hs⟩
    · rw [if_neg h]
      simp only [List.mem_cons, ih, List.mem_cons]
      constructor
      · rintro (he | ⟨hx, hs⟩)
        · exact ⟨Or.inl he, he ▸ h⟩
        · refine ⟨Or.inr hx, fun hm => hs ?_⟩
          tauto
      · rintro ⟨he | hx, hs⟩
        · exact Or.inl he
        · by_cases hxr : x = r
          · exact Or.inl hxr
          · exact Or.inr ⟨hx, by tauto⟩

lemma ddAux_nodup (seen : List (List PyStr)) (l : List (List PyStr)) :
    (ddAux seen l).Nodup := by
  induction l generalizing seen with
  | nil => simp [ddAux]
  | cons r rest ih =>
    simp only [ddAux]
    by_cases h : r ∈ seen
    · simpa [h] using ih seen
    · rw [if_neg h]
      refine List.nodup_cons.mpr ⟨?_, ih (r :: seen)⟩
      intro hm
      exact ((ddAux_mem (r :: seen) rest r).mp hm).2 (List.mem_cons_self r seen)

lemma ddAux_eq_specGo (l : List (List PyStr)) :
    ∀ seen1 seen2 : List (List PyStr), (∀ x, x ∈ seen1 ↔ x ∈ seen2) →
      ddAux seen1 l = specDedupGo seen2 l := by
  induction l with
  | nil => intro _ _ _; rfl
  | cons r rest ih =>
    intro seen1 seen2 hiff
    simp only [ddAux, specDedupGo]
    by_cases h : r ∈ seen1
    · rw [if_pos h, if_pos ((hiff r).mp h)]
      apply ih
      intro x
      rw [hiff x]
      constructor
      · exact fun hx => List.mem_cons_of_mem r hx
      · intro hx
        rcases List.mem_cons.mp hx with he | ht
        · exact he ▸ (hiff r).mp h
        · exact ht
    · rw [if_neg h, if_neg (fun hm => h ((hiff r).mpr hm))]
      rw [ih (r :: seen1) (r :: seen2) (by intro x; simp [hiff x])]

lemma dropDuplicates_eq_specDedup (l : List (List PyStr)) :
    dropDuplicates l = specDedup l :=
  ddAux_eq_specGo l [] [] (fun _ => Iff.rfl)

/-! ## Audit lemmas. -/

lemma auditScan_eq_any (row : List PyStr) :
    auditScan row
      = row.any (fun s => !pyIsDigit s && decide (0 < s.length ∧ s.length < 2)) := by
  induction row with
  | nil => rfl
  | cons s rest ih =>
    simp only [auditScan, List.any_cons]
    by_cases hd : pyIsDigit s = true
    · simp [hd, ih]
    · by_cases hl : 0 < s.length ∧ s.length < 2
      · simp [hd, hl]
      · simp [hd, hl, ih]

/-- The closed form of `audit_integrity`, by the two triggering conditions. -/
lemma audit_integrity_eq (row : List PyStr) :
    audit_integrity row =
      (if ([] ∈ row) ∧ row.any (fun s => !pyIsDigit s && decide (0 < s.length ∧ s.length < 2))
       then pys "Incomplete Entry, Validation Required"
       else if [] ∈ row then pys "Incomplete Entry"
       else if row.any (fun s => !pyIsDigit s && decide (0 < s.length ∧ s.length < 2))
       then pys "Validation Required"
       else []) := by
  unfold audit_integrity
  rw [auditScan_eq_any]
  by_cases h1 : ([] : PyStr) ∈ row
  · by_cases h2 : row.any (fun s => !pyIsDigit s && decide (0 < s.length ∧ s.length < 2)) = true
    · rw [if_pos h1, if_pos h2, if_pos ⟨h1, h2⟩]
      rfl
    · rw [if_pos h1, if_neg h2, if_neg (fun hc => h2 hc.2), if_pos h1]
      rfl
  · by_cases h2 : row.any (fun s => !pyIsDigit s && decide (0 < s.length ∧ s.length < 2)) = true
    · rw [if_neg h1, if_pos h2, if_neg (fun hc => h1 hc.1), if_neg h1, if_pos h2]
      rfl
    · rw [if_neg h1, if_neg h2, if_neg (fun hc => h1 hc.1), if_neg h1, if_neg h2]
      rfl

/-! ## Dispatcher idempotence (sentence and location modes). -/

lemma normalize_text_idem_of_not_fio (x c : PyStr) (hf : fioCol c = false) :
    normalize_text (normalize_text x c) c = normalize_text x c := by
  by_cases hx : x.isEmpty = true
  · simp only [normalize_text, if_pos hx]
  · by_cases hl : locCol c = true
    · have hx' : ¬((normalize_location x).isEmpty = true) := by
        intro h
        have hne : x ≠ [] := fun hn => hx (List.isEmpty_iff.mpr hn)
        have : normalize_location x = pyTitle x := by
          simp only [normalize_location, if_neg hx]
        rw [this] at h
        exact pyTitle_ne_nil x hne (List.isEmpty_iff.mp h)
      simp only [normalize_text, if_neg hx, hf, Bool.false_eq_true, if_false, hl, if_true,
        if_neg hx', normalize_location_idem]
    · by_cases hs : (normalize_sentence x).isEmpty = true
      · simp only [normalize_text, if_neg hx, hf, Bool.false_eq_true, if_false, hl, if_true,
          if_pos hs]
      · simp only [normalize_text, if_neg hx, hf, Bool.false_eq_true, if_false, hl, if_true,
          if_neg hs, normalize_sentence_idem]

/-! ## Pointwise facts about the error-tracking variants. -/

lemma fioWordE_eq (w : PyStr) : fioWordE w = some (fioWord w) := by
  match w with
  | [] => rfl
  | [c] => rfl
  | [c, d] =>
    simp only [fioWordE, fioWord, List.length_cons, List.length_nil]
    by_cases hd : d = '.'
    · simp [hd]
    · simp [hd]
  | c :: d :: e :: t =>
    simp only [fioWordE, fioWord, List.length_cons]
    rw [if_neg (by omega)]
    rfl

lemma mapM_eq_some_map {α β : Type} (f : α → Option β) (g : α → β)
    (h : ∀ x, f x = some (g x)) (l : List α) : l.mapM f = some (l.map g) := by
  induction l with
  | nil => rfl
  | cons x rest ih =>
    rw [List.mapM_cons, h x, ih]
    rfl

lemma normalize_fioE_eq (v : PyStr) : normalize_fioE v = some (normalize_fio v) := by
  unfold normalize_fioE normalize_fio
  by_cases hv : v.isEmpty = true
  · simp [hv]
  · rw [if_neg hv, if_neg hv,
      mapM_eq_some_map fioWordE fioWord fioWordE_eq (pySplitWs v)]
    rfl

lemma normalize_sentenceE_eq (v : PyStr) :
    normalize_sentenceE v = some (normalize_sentence v) := by
  unfold normalize_sentenceE normalize_sentence
  cases hy : pyStrip v with
  | nil => simp
  | cons c rest => simp

lemma normalize_textE_eq (v c : PyStr) :
    normalize_textE v c = some (normalize_text v c) := by
  unfold normalize_textE normalize_text
  by_cases hv : v.isEmpty = true
  · simp [hv]
  · by_cases hf : fioCol c = true
    · simp only [if_neg hv, hf, if_true]
      exact normalize_fioE_eq v
    · by_cases hl : locCol c = true
      · simp [hv, hf, hl]
      · simp only [if_neg hv, hf, Bool.false_eq_true, if_false, hl, if_true]
        exact normalize_sentenceE_eq v

/-! ## Parsing and alignment lemmas. -/

lemma parseDataRow_length (header : List PyStr) (line : PyStr) :
    (parseDataRow header line).length = min (parseLine line).length header.length := by
  simp [parseDataRow, List.length_zip]

lemma zip_get?_eq_some {α β : Type} (l : List α) (m : List β) (i : Nat) (a : α) (b : β)
    (ha : l.get? i = some a) (hb : m.get? i = some b) :
    (l.zip m).get? i = some (a, b) := by
  induction l generalizing m i with
  | nil => simp at ha
  | cons x xs ih =>
    cases m with
    | nil => simp at hb
    | cons y ys =>
      cases i with
      | zero =>
        simp only [List.get?] at ha hb
        cases ha
        cases hb
        rfl
      | succ j =>
        simp only [List.get?] at ha hb ⊢
        exact ih ys j ha hb

lemma parseDataRow_get? (header : List PyStr) (line : PyStr) (i : Nat) (p c : PyStr)
    (hp : (parseLine line).get? i = some p) (hc : header.get? i = some c) :
    (parseDataRow header line).get? i = some (normalize_text p c) := by
  unfold parseDataRow
  rw [List.get?_eq_getElem?, List.getElem?_map, ← List.get?_eq_getElem?,
    zip_get?_eq_some (parseLine line) header i p c hp hc]
  rfl

lemma foldl_max_of_le (l : List Nat) : ∀ a : Nat, (∀ x ∈ l, x ≤ a) → l.foldl Nat.max a = a := by
  induction l with
  | nil => intro a _; rfl
  | cons x xs ih =>
    intro a h
    simp only [List.foldl_cons]
    have hax : Nat.max a x = a := Nat.max_eq_left (h x (List.mem_cons_self x xs))
    rw [hax]
    exact ih a (fun y hy => h y (List.mem_cons_of_mem x hy))

lemma max_cols_found_eq (header : List PyStr) (rows : List (List PyStr))
    (h : ∀ r ∈ rows, r.length ≤ header.length) :
    max_cols_found (header :: rows) = header.length := by
  unfold max_cols_found
  simp only [List.map_cons, List.foldl_cons, Nat.max_eq_right (Nat.zero_le _)]
  apply foldl_max_of_le
  intro x hx
  obtain ⟨r, hr, hrl⟩ := List.mem_map.mp hx
  exact hrl ▸ h r hr

lemma parseData_le_header (header : List PyStr) (lines : List PyStr) :
    ∀ r ∈ parseData header lines, r.length ≤ header.length := by
  intro r hr
  obtain ⟨line, _, hline⟩ := List.mem_map.mp hr
  rw [← hline, parseDataRow_length]
  exact Nat.min_le_right _ _

/-- The structural-alignment branch is dead code: every parsed data row is
already truncated to the header length by `zip`, so `max_cols_found` is the
header length and the header is returned unchanged. -/
lemma extendHeader_parseData (header : List PyStr) (lines : List PyStr) :
    extendHeader header (max_cols_found (header :: parseData header lines)) = header := by
  rw [max_cols_found_eq header _ (parseData_le_header header lines)]
  unfold extendHeader
  rw [if_neg (by omega)]

lemma alignRow_length (header : List PyStr) (r : List PyStr) :
    (alignRow header r).length = header.length := by
  unfold alignRow
  by_cases h : r.length < header.length
  · rw [if_pos h]
    simp only [List.length_append, List.length_replicate]
    omega
  · rw [if_neg h]
    simp only [List.length_take]
    omega

/-! ## Joining and substring lemmas. -/

lemma listPrefixOf_append (x y : PyStr) : listPrefixOf x (x ++ y) = true := by
  induction x with
  | nil => rfl
  | cons c t ih => simp [listPrefixOf, ih]

lemma containsSub_of_prefix (hay needle : PyStr) (h : listPrefixOf needle hay = true) :
    containsSub hay needle = true := by
  unfold containsSub
  rw [if_pos h]

lemma pyJoin_cons (sep : PyStr) (x : PyStr) (xs : List PyStr) :
    ∃ y, pyJoin sep (x :: xs) = x ++ y := by
  cases xs with
  | nil => exact ⟨[], by simp [pyJoin, List.intersperse]⟩
  | cons z zs =>
    exact ⟨sep ++ (pyJoin sep (z :: zs)), by simp [pyJoin, List.intersperse]⟩

/-! ## The person-name token rule agrees with the spec's wording. -/

lemma fioWord_eq_specFioToken (t : PyStr) : fioWord t = specFioToken t := by
  match t with
  | [] => rfl
  | [c] => rfl
  | [c, d] =>
    simp only [fioWord, specFioToken]
    by_cases hd : d = '.'
    · rw [if_pos hd, if_pos (by simp [hd])]
    · rw [if_neg hd, if_neg (by simp [hd])]
      rfl
  | c :: d :: e :: rest =>
    simp only [fioWord, specFioToken]
    rw [if_neg (by simp)]
    rfl

/-! ## Run-level helper lemmas. -/

lemma run_cons_err (f : List PyStr) (fs : List (List PyStr))
    (h : nonBlankLines f = []) :
    run_data_processing (f :: fs) = Except.error InputError.noData := by
  show processLines (nonBlankLines f) = Except.error InputError.noData
  rw [h]
  rfl

lemma run_cons_ok (f : List PyStr) (fs : List (List PyStr)) (l : PyStr) (ls : List PyStr)
    (h : nonBlankLines f = l :: ls) :
    run_data_processing (f :: fs) =
      Except.ok
        ⟨extendHeader (parseLine l)
            (max_cols_found (parseLine l :: parseData (parseLine l) ls)),
          dropDuplicates
            (alignRows
              (extendHeader (parseLine l)
                (max_cols_found (parseLine l :: parseData (parseLine l) ls)))
              (parseData (parseLine l) ls)),
          (dropDuplicates
            (alignRows
              (extendHeader (parseLine l)
                (max_cols_found (parseLine l :: parseData (parseLine l) ls)))
              (parseData (parseLine l) ls))).map audit_integrity⟩ := by
  show processLines (nonBlankLines f) = _
  rw [h]
  rfl

lemma pyStrip_eq_nil_of_all_ws (v : PyStr) (h : ∀ ch ∈ v, pyIsWs ch = true) :
    pyStrip v = [] := by
  have h1 : pyLStrip v = [] := List.dropWhile_eq_nil_iff.mpr h
  unfold pyStrip
  rw [h1]
  rfl

/-! # Claim theorems -/

/-- C4: deduplication removes exactly the rows that are field-wise equal to
some earlier row (`dropDuplicates` equals the spec-side `specDedup`, whose
accumulator is the full list of earlier rows), the output has no two
identical rows, survivors keep their original relative order (sublist), and
the first occurrence of each distinct row survives (membership preserved). -/
theorem c4_dedup_correct (rows : List (List PyStr)) :
    dropDuplicates rows = specDedup rows
    ∧ (dropDuplicates rows).Nodup
    ∧ List.Sublist (dropDuplicates rows) rows
    ∧ (∀ x, x ∈ dropDuplicates rows ↔ x ∈ rows) := by
  refine ⟨dropDuplicates_eq_specDedup rows, ddAux_nodup [] rows, ddAux_sublist [] rows, ?_⟩
  intro x
  rw [show dropDuplicates rows = ddAux [] rows from rfl, ddAux_mem]
  simp

/-- C5: person-name normalization splits on whitespace, maps each token by
the initial/title-capitalization rule of the spec (`specFioToken`) and
rejoins with single spaces; in particular `"петров п. п."` normalizes to
`"Петров П. П."`. -/
theorem c5_fio_normalization :
    normalize_fio (pys "петров п. п.") = pys "Петров П. П."
    ∧ ∀ v, normalize_fio v = specFio v := by
  constructor
  · decide
  · intro v
    by_cases hv : v.isEmpty = true
    · have : v = [] := List.isEmpty_iff.mp hv
      subst this
      rfl
    · unfold normalize_fio specFio
      rw [if_neg hv,
        show fioWord = specFioToken from funext fioWord_eq_specFioToken]

/-- C6: the audit flag of a row is the `", "`-join, in encounter order, of
"Incomplete Entry" (exactly when some field is the empty string, at most
once) and "Validation Required" (exactly when some field that is not
all-digits has length strictly between 0 and 2); no trigger yields `""`. -/
theorem c6_audit_flags (row : List PyStr) :
    audit_integrity row =
      (if ([] ∈ row) ∧ row.any (fun s => !pyIsDigit s && decide (0 < s.length ∧ s.length < 2))
       then pys "Incomplete Entry, Validation Required"
       else if [] ∈ row then pys "Incomplete Entry"
       else if row.any (fun s => !pyIsDigit s && decide (0 < s.length ∧ s.length < 2))
       then pys "Validation Required"
       else []) :=
  audit_integrity_eq row

/-- C8: all normalization modes are total: the error-tracking variants, in
which every Python string indexing is explicit, always return `some` of the
pure result; whitespace splitting never produces an empty token, so
consecutive spaces cannot crash person-name mode — e.g. `"а  б"`
normalizes (with the double space collapsed) to `"А Б"`. -/
theorem c8_normalization_total :
    (∀ v c, normalize_textE v c = some (normalize_text v c))
    ∧ (∀ v, normalize_fioE v = some (normalize_fio v))
    ∧ (∀ v, normalize_sentenceE v = some (normalize_sentence v))
    ∧ (∀ v, (pySplitWs v).all (fun t => !t.isEmpty) = true)
    ∧ normalize_fio (pys "а  б") = pys "А Б" := by
  refine ⟨normalize_textE_eq, normalize_fioE_eq, normalize_sentenceE_eq, ?_, by decide⟩
  intro v
  rw [List.all_eq_true]
  intro t ht
  exact (List.mem_filter.mp ht).2

/-- C9: the run fails exactly when there is no candidate file or the
selected (first) file has no non-blank lines; in the model an
`Except.error` is returned, so no `RunOutput` is produced (nothing is
exported). -/
theorem c9_input_error_exact :
    run_data_processing [] = Except.error InputError.noFiles
    ∧ (∀ f fs, run_data_processing (f :: fs) = Except.error InputError.noData
        ↔ nonBlankLines f = [])
    ∧ (∀ files, (∃ e, run_data_processing files = Except.error e)
        ↔ (files = [] ∨ ∃ f fs, files = f :: fs ∧ nonBlankLines f = [])) := by
  refine ⟨rfl, ?_, ?_⟩
  · intro f fs
    constructor
    · intro h
      cases hnb : nonBlankLines f with
      | nil => rfl
      | cons l ls =>
        rw [run_cons_ok f fs l ls hnb] at h
        exact absurd h (by simp)
    · intro h
      exact run_cons_err f fs h
  · intro files
    cases files with
    | nil =>
      constructor
      · intro _
        exact Or.inl rfl
      · intro _
        exact ⟨InputError.noFiles, rfl⟩
    | cons f fs =>
      constructor
      · rintro ⟨e, he⟩
        cases hnb : nonBlankLines f with
        | nil => exact Or.inr ⟨f, fs, rfl, hnb⟩
        | cons l ls =>
          rw [run_cons_ok f fs l ls hnb] at he
          exact absurd he (by simp)
      · rintro (h | ⟨f', fs', hf, hnb⟩)
        · exact absurd h (by simp)
        · obtain ⟨hf1, hf2⟩ := List.cons.inj hf
          exact ⟨InputError.noData, run_cons_err f fs (hf1 ▸ hnb)⟩

/-- C1 (code divergence): the header-extension branch of step 2 is
unreachable — `zip` truncates every data row to the header length during
parsing, so `max_cols_found` always equals the header length and the
header is returned unchanged.  Concretely, for the file with lines
`"a;b"` and `"x;y;z"` the second line splits into 3 fields, yet the run
keeps the 2-column header with no `Additional_Field_3`. -/
theorem c1_header_never_extended :
    (∀ header lines,
      extendHeader header (max_cols_found (header :: parseData header lines)) = header)
    ∧ (parseLine (pys "x;y;z")).length = 3
    ∧ run_data_processing [[pys "a;b", pys "x;y;z"]]
        = Except.ok ⟨[pys "a", pys "b"], [[pys "X", pys "Y"]],
            [pys "Validation Required"]⟩ := by
  exact ⟨extendHeader_parseData, by decide, by rfl⟩

/-- C2 (code divergence): parsing pairs fields with header names
positionally and stops at the shorter sequence, so a field at an index
below the header length is normalized against its header name, while a
field at an index at or beyond the header length is REMOVED from the
parsed row (it does not pass through): the parsed row's length is the
minimum of the field count and the header length.  Concretely the third
field `"z"` of `"x;y;z"` is gone after parsing against a 2-column header. -/
theorem c2_extra_fields_dropped :
    (∀ header line,
      (parseDataRow header line).length = min (parseLine line).length header.length)
    ∧ (∀ header line i p c, (parseLine line).get? i = some p → header.get? i = some c →
        (parseDataRow header line).get? i = some (normalize_text p c))
    ∧ parseDataRow [pys "a", pys "b"] (pys "x;y;z") = [pys "X", pys "Y"] := by
  exact ⟨parseDataRow_length, fun h l i p c hp hc => parseDataRow_get? h l i p c hp hc,
    by decide⟩

/-- Witness for C2 at a concrete input: in the line `"x;y"` parsed against
the one-column header `["a"]`, field 0 is normalized against column `"a"`. -/
theorem c2_extra_fields_dropped_witness :
    ((parseLine (pys "x;y")).get? 0 = some (pys "x"))
    ∧ (([pys "a"] : List PyStr).get? 0 = some (pys "a"))
    ∧ (parseDataRow [pys "a"] (pys "x;y")).get? 0
        = some (normalize_text (pys "x") (pys "a")) :=
  ⟨by decide, by decide,
    c2_extra_fields_dropped.2.1 [pys "a"] (pys "x;y") 0 (pys "x") (pys "a")
      (by decide) (by decide)⟩

/-- C3: after structural alignment every data row has exactly the header's
length: shorter rows are right-padded with empty strings, longer rows are
right-truncated; consequently every table row of a successful run has the
final header's length. -/
theorem c3_alignment_invariant :
    (∀ header rows r, r ∈ alignRows header rows → r.length = header.length)
    ∧ (∀ header r, r.length ≤ header.length →
        alignRow header r = r ++ List.replicate (header.length - r.length) ([] : PyStr))
    ∧ (∀ header r, header.length ≤ r.length → alignRow header r = r.take header.length)
    ∧ (∀ files out, run_data_processing files = Except.ok out →
        ∀ r ∈ out.table, r.length = out.header.length) := by
  refine ⟨?_, ?_, ?_, ?_⟩
  · intro header rows r hr
    obtain ⟨r0, _, hr0⟩ := List.mem_map.mp hr
    rw [← hr0]
    exact alignRow_length header r0
  · intro header r h
    unfold alignRow
    by_cases hlt : r.length < header.length
    · rw [if_pos hlt]
    · have heq : r.length = header.length := Nat.le_antisymm h (Nat.le_of_not_lt hlt)
      rw [if_neg hlt, List.take_of_length_le (by omega), heq, Nat.sub_self]
      simp
  · intro header r h
    unfold alignRow
    rw [if_neg (by omega)]
  · intro files out hrun r hr
    cases files with
    | nil => exact absurd hrun (by simp [run_data_processing])
    | cons f fs =>
      cases hnb : nonBlankLines f with
      | nil =>
        rw [run_cons_err f fs hnb] at hrun
        exact absurd hrun (by simp)
      | cons l ls =>
        rw [run_cons_ok f fs l ls hnb] at hrun
        obtain rfl : out = _ := (Except.ok.inj hrun).symm
        simp only at hr ⊢
        have hr' : r ∈ alignRows
            (extendHeader (parseLine l)
              (max_cols_found (parseLine l :: parseData (parseLine l) ls)))
            (parseData (parseLine l) ls) :=
          ((ddAux_mem [] _ r).mp hr).1
        obtain ⟨r0, _, hr0⟩ := List.mem_map.mp hr'
        rw [← hr0]
        exact alignRow_length _ r0

/-- Witness for C3 at concrete inputs: padding, truncation and the
run-level length invariant at the file with lines `"a;b"` and `"x;y;z"`. -/
theorem c3_alignment_invariant_witness :
    (([pys "x", []] : List PyStr).length = ([pys "a", pys "b"] : List PyStr).length)
    ∧ alignRow [pys "a", pys "b"] [pys "x"]
        = [pys "x"] ++ List.replicate 1 ([] : PyStr)
    ∧ alignRow [pys "a"] [pys "x", pys "y"] = [pys "x", pys "y"].take 1
    ∧ ([pys "X", pys "Y"] : List PyStr).length
        = ([pys "a", pys "b"] : List PyStr).length := by
  refine ⟨?_, ?_, ?_, ?_⟩
  · exact c3_alignment_invariant.1 [pys "a", pys "b"] [[pys "x"]] _ (by decide)
  · have := c3_alignment_invariant.2.1 [pys "a", pys "b"] [pys "x"] (by decide)
    simpa using this
  · exact c3_alignment_invariant.2.2.1 [pys "a"] [pys "x", pys "y"] (by decide)
  · exact c3_alignment_invariant.2.2.2 [[pys "a;b", pys "x;y;z"]]
      ⟨[pys "a", pys "b"], [[pys "X", pys "Y"]], [pys "Validation Required"]⟩
      (by rfl) [pys "X", pys "Y"] (by decide)

/-- C7: for every column name that dispatches to sentence mode or location
mode (i.e. not person-name mode, which is tested first), normalization is
idempotent. -/
theorem c7_normalization_idempotent (x c : PyStr) (h : fioCol c = false) :
    normalize_text (normalize_text x c) c = normalize_text x c :=
  normalize_text_idem_of_not_fio x c h

/-- Witness for C7: the location column `"Город"` on `"санкт-петербург"`. -/
theorem c7_normalization_idempotent_witness :
    fioCol (pys "Город") = false
    ∧ normalize_text (normalize_text (pys "санкт-петербург") (pys "Город")) (pys "Город")
        = normalize_text (pys "санкт-петербург") (pys "Город") :=
  ⟨by decide, c7_normalization_idempotent (pys "санкт-петербург") (pys "Город") (by decide)⟩

/-- C10: a non-empty all-whitespace value in a sentence-mode column
normalizes to the empty string (it is stripped before capitalization), and
a row containing that normalized field is flagged "Incomplete Entry" by
the audit. -/
theorem c10_whitespace_to_empty (v c : PyStr) (hv : v ≠ [])
    (hws : ∀ ch ∈ v, pyIsWs ch = true)
    (hf : fioCol c = false) (hl : locCol c = false) :
    normalize_text v c = []
    ∧ (∀ rest, containsSub (audit_integrity (normalize_text v c :: rest))
        (pys "Incomplete Entry") = true) := by
  have hne : ¬(v.isEmpty = true) := fun h => hv (List.isEmpty_iff.mp h)
  have hnt : normalize_text v c = [] := by
    simp only [normalize_text, if_neg hne, hf, Bool.false_eq_true, if_false, hl]
    simp only [normalize_sentence, pyStrip_eq_nil_of_all_ws v hws]
  refine ⟨hnt, ?_⟩
  intro rest
  rw [hnt]
  unfold audit_integrity
  rw [if_pos (List.mem_cons_self ([] : PyStr) rest)]
  obtain ⟨y, hy⟩ := pyJoin_cons (pys ", ") (pys "Incomplete Entry")
    (if auditScan ([] :: rest) then [pys "Validation Required"] else [])
  rw [show [pys "Incomplete Entry"]
        ++ (if auditScan ([] :: rest) then [pys "Validation Required"] else [])
      = pys "Incomplete Entry"
        :: (if auditScan ([] :: rest) then [pys "Validation Required"] else [])
    from rfl, hy]
  exact containsSub_of_prefix _ _ (listPrefixOf_append _ y)

/-- Witness for C10: two spaces in the sentence-mode column `"Note"`. -/
theorem c10_whitespace_to_empty_witness :
    (pys "  " ≠ [])
    ∧ normalize_text (pys "  ") (pys "Note") = []
    ∧ containsSub (audit_integrity [normalize_text (pys "  ") (pys "Note")])
        (pys "Incomplete Entry") = true :=
  ⟨by decide,
    (c10_whitespace_to_empty (pys "  ") (pys "Note") (by decide) (by decide)
      (by decide) (by decide)).1,
    (c10_whitespace_to_empty (pys "  ") (pys "Note") (by decide) (by decide)
      (by decide) (by decide)).2 []⟩
